import Mathlib

/-!
Verification of `colossalai/zero/sharded_model/_zero3_utils.py`.

Tensors are modelled by their flattened contents (`List Int`); all claims
about sharding concern only element counts and zero padding, which this
embedding captures exactly.  `torch.Tensor.chunk(n)` is modelled by its
documented/ATen semantics: split into consecutive pieces of size
`ceil(numel/n)` (the last piece possibly smaller); on an empty tensor it
returns a single empty chunk.
-/

namespace Zero3Utils

/-- The split size used by `torch.chunk`: `ceil(m / n)` computed as in ATen. -/
def chunkSplitSize (m n : Nat) : Nat := (m + n - 1) / n

/-- `torch.split(split_size = k)` on a flattened tensor `xs` (for `k ≥ 1`):
consecutive pieces of `k` elements, the last possibly smaller. -/
def splitList (k : Nat) (xs : List Int) : List (List Int) :=
  (List.range ((xs.length + k - 1) / k)).map (fun i => (xs.drop (i * k)).take k)

/-- `torch.flatten(t).chunk(n)`: one empty chunk for an empty tensor,
otherwise split with piece size `ceil(m / n)`. -/
def torchChunk (xs : List Int) (n : Nat) : List (List Int) :=
  if xs.length = 0 then [[]] else splitList (chunkSplitSize xs.length n) xs

/-- The chunk list built at the start of `get_shard`: `torch.chunk` output
extended with empty chunks (`chunks[0].new_empty(0)`) up to `world_size`. -/
def get_shard_chunks (xs : List Int) (n : Nat) : List (List Int) :=
  let cs := torchChunk xs n
  cs ++ List.replicate (n - cs.length) []

/-- `num_to_pad = chunks[0].numel() - chunks[rank].numel()` (a Python `int`,
so modelled in `Int`). -/
def get_shard_pad (xs : List Int) (rank n : Nat) : Int :=
  (((get_shard_chunks xs n).getD 0 []).length : Int)
    - (((get_shard_chunks xs n).getD rank []).length : Int)

/-- `get_shard(tensor, rank, world_size)`: `none` models the
`assert num_to_pad >= 0` failing; otherwise the rank's chunk is cloned and
right-padded with zeros (`F.pad(shard, [0, num_to_pad])`), returned together
with the pad count. -/
def get_shard (xs : List Int) (rank n : Nat) : Option (List Int × Nat) :=
  if get_shard_pad xs rank n < 0 then none
  else
    some ((get_shard_chunks xs n).getD rank []
            ++ List.replicate (get_shard_pad xs rank n).toNat 0,
          (get_shard_pad xs rank n).toNat)

/-- `num_pad_for_partial_chunk = chunks[0].numel() - chunks[-1].numel()` in
`chunk_and_pad` (a Python `int`, so modelled in `Int`; `chunks[-1]` is the
element at index `len(chunks) - 1`). -/
def capPad (xs : List Int) (n : Nat) : Int :=
  (((torchChunk xs n).getD 0 []).length : Int)
    - (((torchChunk xs n).getD ((torchChunk xs n).length - 1) []).length : Int)

/-- The chunk list of `chunk_and_pad` after `chunks[-1] = F.pad(chunks[-1],
[0, num_pad_for_partial_chunk])` (executed only when the pad count is
positive). -/
def capChunks2 (xs : List Int) (n : Nat) : List (List Int) :=
  if 0 < capPad xs n then
    (torchChunk xs n).dropLast
      ++ [(torchChunk xs n).getD ((torchChunk xs n).length - 1) []
            ++ List.replicate (capPad xs n).toNat 0]
  else torchChunk xs n

/-- `chunk_and_pad(tensor, num_chunks)`: chunk, right-pad the last chunk
(`chunks[-1]`) up to the first chunk's size when the difference is positive,
then append `zeros_like(chunks[0])` chunks until there are `num_chunks`. -/
def chunk_and_pad (xs : List Int) (n : Nat) : List (List Int) :=
  if (capChunks2 xs n).length < n then
    capChunks2 xs n
      ++ List.replicate (n - (capChunks2 xs n).length)
          (List.replicate ((capChunks2 xs n).getD 0 []).length 0)
  else capChunks2 xs n

/-- The loop of `get_gradient_predivide_factor`:
`while world_size % factor == 0 and world_size / factor > factor: factor *= 2`.
Python `/` is exact here since the first conjunct forces `factor ∣ world_size`,
so the test is `factor * factor < world_size`.  The `0 < factor` conjunct only
serves termination: the function is always entered with `factor = 1` and the
factor only ever doubles. -/
def predivideLoop (ws factor : Nat) : Nat :=
  if h : 0 < factor ∧ ws % factor = 0 ∧ factor * factor < ws then
    predivideLoop ws (factor * 2)
  else factor
termination_by ws - factor
decreasing_by
  have h1 : factor ≤ factor * factor := Nat.le_mul_of_pos_left factor h.1
  omega

/-- `get_gradient_predivide_factor(world_size)` (the Python function returns
`float(factor)`; the value is the integer `factor`). -/
def get_gradient_predivide_factor (ws : Nat) : Nat := predivideLoop ws 1

/-- Tensor dtypes relevant to the casting helpers. -/
inductive DType where
  | float32 : DType
  | float16 : DType
  | float64 : DType
deriving DecidableEq

/-- The tensor attributes the casting helpers read and write: dtype, the
`requires_grad` flag and leaf-ness. -/
structure Tensor where
  dtype : DType
  requiresGrad : Bool
  isLeaf : Bool
deriving DecidableEq

/-- `tensor.half()`: a fresh fp16 tensor; the cast breaks the autograd graph
link (cf. the spec), so the fresh tensor does not track gradients and is a
leaf. -/
def tensorHalf (_t : Tensor) : Tensor :=
  { dtype := DType.float16, requiresGrad := false, isLeaf := true }

/-- `tensor.float()`: a fresh fp32 tensor, same grad-tracking model as
`tensorHalf`. -/
def tensorFloat (_t : Tensor) : Tensor :=
  { dtype := DType.float32, requiresGrad := false, isLeaf := true }

/-- `out.requires_grad = b`. -/
def setRequiresGrad (t : Tensor) (b : Bool) : Tensor := { t with requiresGrad := b }

/-- `cast_trensor_to_fp16` (name kept from the source, typo included). -/
def cast_trensor_to_fp16 (t : Tensor) : Tensor :=
  if t.dtype = DType.float32 then
    let out := tensorHalf t
    if t.isLeaf then setRequiresGrad out t.requiresGrad else out
  else t

/-- `cast_trensor_to_fp32` (name kept from the source, typo included). -/
def cast_trensor_to_fp32 (t : Tensor) : Tensor :=
  if t.dtype = DType.float16 then
    let out := tensorFloat t
    if t.isLeaf then setRequiresGrad out t.requiresGrad else out
  else t

/-- Tensor memory attributes used by the storage-lifecycle helpers:
the backing buffer's element count and the tensor's storage offset. -/
structure TensorMem where
  storageSize : Nat
  storageOffset : Nat
deriving DecidableEq

/-- `free_storage(data)`: resize the backing buffer to zero when it is
non-empty, asserting `data.storage_offset() == 0` first (`none` models the
assertion failing); an empty buffer is left untouched. -/
def free_storage (t : TensorMem) : Option TensorMem :=
  if 0 < t.storageSize then
    if t.storageOffset = 0 then some { t with storageSize := 0 } else none
  else some t

/-- `alloc_storage(data, size)`: no-op when the buffer already holds
`size.numel()` elements; otherwise assert the buffer is empty (`none` models
the assertion failing) and resize it to `size.numel()`.  `size` is a shape,
whose element count is the product of its entries. -/
def alloc_storage (t : TensorMem) (size : List Nat) : Option TensorMem :=
  if t.storageSize = size.prod then some t
  else if t.storageSize = 0 then some { t with storageSize := size.prod }
  else none

/-- Python values traversed by `apply_to_tensors`: tensors, lists, tuples,
string-keyed dicts, and opaque non-tensor leaves. -/
inductive PyVal where
  | tensor (t : Tensor) : PyVal
  | list (xs : List PyVal) : PyVal
  | tuple (xs : List PyVal) : PyVal
  | dict (xs : List (String × PyVal)) : PyVal
  | other (v : Int) : PyVal

mutual

/-- `apply_to_tensors(x, fn)`: apply `fn` to every tensor leaf, rebuild
lists/tuples/dicts, return other leaves unchanged. -/
def apply_to_tensors : PyVal → (Tensor → PyVal) → PyVal
  | PyVal.tensor t, fn => fn t
  | PyVal.list xs, fn => PyVal.list (applyToList xs fn)
  | PyVal.tuple xs, fn => PyVal.tuple (applyToList xs fn)
  | PyVal.dict xs, fn => PyVal.dict (applyToDict xs fn)
  | PyVal.other v, _ => PyVal.other v

/-- The list/tuple comprehension inside `apply_to_tensors`. -/
def applyToList : List PyVal → (Tensor → PyVal) → List PyVal
  | [], _ => []
  | x :: xs, fn => apply_to_tensors x fn :: applyToList xs fn

/-- The dict comprehension inside `apply_to_tensors`. -/
def applyToDict : List (String × PyVal) → (Tensor → PyVal) → List (String × PyVal)
  | [], _ => []
  | (k, v) :: xs, fn => (k, apply_to_tensors v fn) :: applyToDict xs fn

end

/-- Python string keys, modelled as lists of characters. -/
abbrev Key := List Char

/-- `state_dict[k] = v` on a Python dict: update the value in place if the
key is present (keeping its position), otherwise append the new entry. -/
def dictInsert {V : Type} : List (Key × V) → Key → V → List (Key × V)
  | [], k, v => [(k, v)]
  | (k', v') :: rest, k, v =>
      if k' = k then (k, v) :: rest else (k', v') :: dictInsert rest k v

/-- `del state_dict[k]` on a Python dict (keys are unique, so removing the
first occurrence removes the entry). -/
def dictErase {V : Type} : List (Key × V) → Key → List (Key × V)
  | [], _ => []
  | (k', v') :: rest, k => if k' = k then rest else (k', v') :: dictErase rest k

/-- `state_dict[k]` lookup. -/
def dictGet? {V : Type} : List (Key × V) → Key → Option V
  | [], _ => none
  | (k', v') :: rest, k => if k' = k then some v' else dictGet? rest k

/-- One iteration of the loop in `replace_state_dict_prefix`: for a snapshot
key that starts with the old prefix (`key.startswith(old_prefix)`, i.e. its
first `len(old_prefix)` characters equal it), bind
`new_prefix + key[len(old_prefix):]` to the key's current value and delete the
old key.  The key is always present when the loop body runs (only snapshot
keys are ever deleted, each in its own iteration), so the `none` branch is
unreachable. -/
def rsdpStep {V : Type} (oldP newP : Key) (d : List (Key × V)) (key : Key) :
    List (Key × V) :=
  if key.take oldP.length = oldP then
    match dictGet? d key with
    | some v => dictErase (dictInsert d (newP ++ key.drop oldP.length) v) key
    | none => d
  else d

/-- The loop of `replace_state_dict_prefix`, processing a snapshot of the
keys (`for key in list(state_dict.keys())`). -/
def rsdpRun {V : Type} (d : List (Key × V)) (oldP newP : Key) (todo : List Key) :
    List (Key × V) :=
  todo.foldl (rsdpStep oldP newP) d

/-- `replace_state_dict_prefix(state_dict, old_prefix, new_prefix)`: raises
`ValueError` when the prefixes coincide (second component `true`, with the
mapping returned untouched), otherwise runs the rename loop over a snapshot
of the keys in mapping order. -/
def replace_state_dict_keys {V : Type} (d : List (Key × V)) (oldP newP : Key) :
    List (Key × V) × Bool :=
  if oldP = newP then (d, true)
  else (rsdpRun d oldP newP (d.map Prod.fst), false)

/-! ### Arithmetic facts about the split size -/

lemma chunkSplitSize_pos {m n : Nat} (hm : 0 < m) (hn : 0 < n) :
    0 < chunkSplitSize m n := by
  have h : 1 ≤ (m + n - 1) / n := by
    rw [Nat.le_div_iff_mul_le hn]; omega
  simpa [chunkSplitSize] using h

lemma chunkSplitSize_le {m n : Nat} (hm : 0 < m) (hn : 0 < n) :
    chunkSplitSize m n ≤ m := by
  have h1 : m * 1 ≤ m * n := Nat.mul_le_mul_left m hn
  have h2 : (m + n - 1) / n < m + 1 := by
    rw [Nat.div_lt_iff_lt_mul hn]
    have h3 : (m + 1) * n = m * n + n := by ring
    omega
  simp only [chunkSplitSize]
  omega

lemma le_mul_chunkSplitSize (m : Nat) {n : Nat} (hn : 0 < n) :
    m ≤ n * chunkSplitSize m n := by
  have h1 := Nat.div_add_mod (m + n - 1) n
  have h2 := Nat.mod_lt (m + n - 1) hn
  simp only [chunkSplitSize]
  omega

/-! ### Structure of `splitList` and the extended chunk list -/

lemma splitList_length (k : Nat) (xs : List Int) :
    (splitList k xs).length = (xs.length + k - 1) / k := by
  simp [splitList]

lemma splitList_getD {k : Nat} (hk : 0 < k) (xs : List Int) (r : Nat) :
    (splitList k xs).getD r [] = (xs.drop (r * k)).take k := by
  by_cases hr : r < (xs.length + k - 1) / k
  · have hr' : r < (splitList k xs).length := by rw [splitList_length]; exact hr
    rw [List.getD_eq_getElem _ _ hr']
    simp [splitList]
  · have hlen : (splitList k xs).length ≤ r := by rw [splitList_length]; omega
    rw [List.getD_eq_default _ _ hlen]
    have h1 := le_mul_chunkSplitSize xs.length hk
    have h2 : ((xs.length + k - 1) / k) * k ≤ r * k :=
      Nat.mul_le_mul_right k (by omega)
    have h3 : xs.length ≤ r * k := by
      have : k * ((xs.length + k - 1) / k) = ((xs.length + k - 1) / k) * k :=
        Nat.mul_comm _ _
      simp only [chunkSplitSize] at h1
      omega
    rw [List.drop_eq_nil_of_le h3]
    simp

lemma getD_all_nil (L : List (List Int)) (h : ∀ y ∈ L, y = ([] : List Int))
    (r : Nat) : L.getD r [] = [] := by
  induction L generalizing r with
  | nil => simp
  | cons a t ih =>
    cases r with
    | zero => simpa using h a (by simp)
    | succ r => simpa using ih (fun y hy => h y (by simp [hy])) r

lemma get_shard_chunks_getD (xs : List Int) {n : Nat} (hn : 0 < n) (r : Nat) :
    (get_shard_chunks xs n).getD r [] =
      (xs.drop (r * chunkSplitSize xs.length n)).take (chunkSplitSize xs.length n) := by
  by_cases hm : xs.length = 0
  · have hx : xs = [] := List.length_eq_zero.mp hm
    subst hx
    have hall : ∀ y ∈ get_shard_chunks [] n, y = ([] : List Int) := by
      intro y hy
      simp only [get_shard_chunks, torchChunk] at hy
      simp at hy
      rcases hy with hy | hy
      · exact hy
      · exact hy.2
    rw [getD_all_nil _ hall]
    simp
  · have hm' : 0 < xs.length := Nat.pos_of_ne_zero hm
    have hK : 0 < chunkSplitSize xs.length n := chunkSplitSize_pos hm' hn
    have htc : torchChunk xs n = splitList (chunkSplitSize xs.length n) xs := by
      rw [torchChunk, if_neg hm]
    rw [get_shard_chunks, htc]
    by_cases hr : r < (splitList (chunkSplitSize xs.length n) xs).length
    · rw [List.getD_append _ _ _ _ hr]
      exact splitList_getD hK xs r
    · rw [List.getD_append_right _ _ _ _ (by omega)]
      rw [getD_all_nil _ (by intro y hy; exact (List.eq_of_mem_replicate hy))]
      rw [← splitList_getD hK xs r, List.getD_eq_default _ _ (by omega)]

/-! ### `get_shard`: padding is never negative, shards are uniform -/

lemma get_shard_pad_eq (xs : List Int) (rank : Nat) {n : Nat} (hn : 0 < n) :
    get_shard_pad xs rank n =
      ((min (chunkSplitSize xs.length n) xs.length : Nat) : Int)
        - (((xs.drop (rank * chunkSplitSize xs.length n)).take
              (chunkSplitSize xs.length n)).length : Int) := by
  unfold get_shard_pad
  rw [get_shard_chunks_getD xs hn 0, get_shard_chunks_getD xs hn rank]
  simp [List.length_take, List.length_drop]

lemma get_shard_pad_nonneg (xs : List Int) (rank : Nat) {n : Nat} (hn : 0 < n) :
    0 ≤ get_shard_pad xs rank n := by
  rw [get_shard_pad_eq xs rank hn]
  simp only [List.length_take, List.length_drop]
  omega

lemma get_shard_eq (xs : List Int) (rank : Nat) {n : Nat} (hn : 0 < n) :
    get_shard xs rank n = some
      ((get_shard_chunks xs n).getD rank []
          ++ List.replicate (get_shard_pad xs rank n).toNat 0,
        (get_shard_pad xs rank n).toNat) := by
  rw [get_shard, if_neg (not_lt.mpr (get_shard_pad_nonneg xs rank hn))]

lemma get_shard_len (xs : List Int) (rank : Nat) {n : Nat} (hn : 0 < n) :
    ((get_shard_chunks xs n).getD rank []
        ++ List.replicate (get_shard_pad xs rank n).toNat 0).length
      = min (chunkSplitSize xs.length n) xs.length := by
  rw [List.length_append, List.length_replicate, get_shard_chunks_getD xs hn rank,
      get_shard_pad_eq xs rank hn]
  simp [List.length_take, List.length_drop]
  omega

lemma sum_min_take (K m n : Nat) :
    (∑ r ∈ Finset.range n, min K (m - r * K)) = min m (n * K) := by
  induction n with
  | zero => simp
  | succ n ih =>
    rw [Finset.sum_range_succ, ih, Nat.succ_mul]
    omega

lemma sum_chunk_lengths (xs : List Int) {n : Nat} (hn : 0 < n) :
    (∑ r ∈ Finset.range n, ((get_shard_chunks xs n).getD r []).length) = xs.length := by
  have h1 : ∀ r ∈ Finset.range n, ((get_shard_chunks xs n).getD r []).length
      = min (chunkSplitSize xs.length n)
          (xs.length - r * chunkSplitSize xs.length n) := by
    intro r _
    rw [get_shard_chunks_getD xs hn r]
    simp [List.length_take, List.length_drop, Nat.min_comm]
  rw [Finset.sum_congr rfl h1, sum_min_take]
  have h2 := le_mul_chunkSplitSize xs.length hn
  omega

/-- C1: for every tensor and every `world_size > 0`, all ranks' `get_shard`
results have one common element count, and the total element count across
ranks minus the total returned padding equals the source element count. -/
theorem get_shard_uniform_conserves (xs : List Int) (n : Nat) (hn : 0 < n) :
    ∃ L : Nat,
      (∀ r, r < n → ∃ s p, get_shard xs r n = some (s, p) ∧ s.length = L) ∧
      (∑ r ∈ Finset.range n, (((get_shard xs r n).getD ([], 0)).1.length : Int))
          - (∑ r ∈ Finset.range n, (((get_shard xs r n).getD ([], 0)).2 : Int))
        = (xs.length : Int) := by
  refine ⟨min (chunkSplitSize xs.length n) xs.length, ?_, ?_⟩
  · intro r _
    exact ⟨_, _, get_shard_eq xs r hn, get_shard_len xs r hn⟩
  · have hs1 : ∀ r ∈ Finset.range n,
        (((get_shard xs r n).getD ([], 0)).1.length : Int)
          = ((min (chunkSplitSize xs.length n) xs.length : Nat) : Int) := by
      intro r _
      rw [get_shard_eq xs r hn]
      simp only [Option.getD_some]
      exact_mod_cast congrArg (Nat.cast (R := Int)) (get_shard_len xs r hn)
    have hs2 : ∀ r ∈ Finset.range n,
        (((get_shard xs r n).getD ([], 0)).2 : Int)
          = ((min (chunkSplitSize xs.length n) xs.length : Nat) : Int)
              - (((get_shard_chunks xs n).getD r []).length : Int) := by
      intro r _
      rw [get_shard_eq xs r hn]
      simp only [Option.getD_some]
      rw [Int.toNat_of_nonneg (get_shard_pad_nonneg xs r hn)]
      rw [get_shard_pad_eq xs r hn, get_shard_chunks_getD xs hn r]
    rw [Finset.sum_congr rfl hs1, Finset.sum_congr rfl hs2,
        Finset.sum_sub_distrib, Finset.sum_const, Finset.card_range]
    have h3 : (∑ r ∈ Finset.range n, (((get_shard_chunks xs n).getD r []).length : Int))
        = (xs.length : Int) := by
      rw [← Nat.cast_sum, sum_chunk_lengths xs hn]
    rw [h3]
    ring

/-- C4: in `get_shard`, for `world_size > 0` and `rank < world_size`, the
computed `num_to_pad` is never negative, so the assertion branch is
unreachable and `get_shard` always returns a shard. -/
theorem get_shard_assert_unreachable (xs : List Int) (rank n : Nat)
    (hn : 0 < n) (_hr : rank < n) :
    0 ≤ get_shard_pad xs rank n ∧ ∃ s p, get_shard xs rank n = some (s, p) :=
  ⟨get_shard_pad_nonneg xs rank hn, _, _, get_shard_eq xs rank hn⟩

/-- Witness for C1 at the concrete tensor `[1, 2, 3]` with `world_size = 2`. -/
theorem get_shard_uniform_conserves_witness :
    0 < 2 ∧
      (∃ L : Nat,
        (∀ r, r < 2 → ∃ s p, get_shard [1, 2, 3] r 2 = some (s, p) ∧ s.length = L) ∧
        (∑ r ∈ Finset.range 2, (((get_shard [1, 2, 3] r 2).getD ([], 0)).1.length : Int))
            - (∑ r ∈ Finset.range 2, (((get_shard [1, 2, 3] r 2).getD ([], 0)).2 : Int))
          = (([1, 2, 3] : List Int).length : Int)) :=
  ⟨by decide, get_shard_uniform_conserves [1, 2, 3] 2 (by decide)⟩

/-- Witness for C4 at the concrete tensor `[1, 2, 3]`, rank `1`,
`world_size = 2`. -/
theorem get_shard_assert_unreachable_witness :
    0 < 2 ∧ 1 < 2 ∧
      (0 ≤ get_shard_pad [1, 2, 3] 1 2 ∧
        ∃ s p, get_shard [1, 2, 3] 1 2 = some (s, p)) :=
  ⟨by decide, by decide,
    get_shard_assert_unreachable [1, 2, 3] 1 2 (by decide) (by decide)⟩

/-! ### `chunk_and_pad`: exactly `n` equally sized chunks -/

lemma splitList_concat (k : Nat) (xs : List Int)
    (hc : 0 < (xs.length + k - 1) / k) :
    splitList k xs =
      ((List.range ((xs.length + k - 1) / k - 1)).map
          (fun i => (xs.drop (i * k)).take k))
        ++ [(xs.drop (((xs.length + k - 1) / k - 1) * k)).take k] := by
  rw [splitList]
  have h1 : (xs.length + k - 1) / k = ((xs.length + k - 1) / k - 1) + 1 := by omega
  conv_lhs => rw [h1]
  rw [List.range_succ, List.map_append]
  simp

lemma splitList_dropLast (k : Nat) (xs : List Int)
    (hc : 0 < (xs.length + k - 1) / k) :
    (splitList k xs).dropLast =
      (List.range ((xs.length + k - 1) / k - 1)).map
        (fun i => (xs.drop (i * k)).take k) := by
  rw [splitList_concat k xs hc]
  exact List.dropLast_concat

lemma mem_splitList_dropLast_length {k : Nat} (hk : 0 < k) {xs : List Int}
    {y : List Int} (hy : y ∈ (splitList k xs).dropLast) : y.length = k := by
  by_cases hc : 0 < (xs.length + k - 1) / k
  · rw [splitList_dropLast k xs hc] at hy
    simp only [List.mem_map, List.mem_range] at hy
    obtain ⟨i, hi, rfl⟩ := hy
    have h2 : i + 2 ≤ (xs.length + k - 1) / k := by omega
    have h3 : (i + 2) * k ≤ xs.length + k - 1 := by
      rw [← Nat.le_div_iff_mul_le hk]; exact h2
    have h4 : (i + 2) * k = i * k + 2 * k := by ring
    simp only [List.length_take, List.length_drop]
    omega
  · have hnil : splitList k xs = [] := by
      have h0 : (xs.length + k - 1) / k = 0 := Nat.eq_zero_of_not_pos hc
      rw [splitList, h0]
      simp
    rw [hnil] at hy
    simp at hy

/-- C2: for every tensor and every `num_chunks ≥ 1`, `chunk_and_pad` returns
exactly `num_chunks` chunks, all of one common element count. -/
theorem chunk_and_pad_count_uniform (xs : List Int) (n : Nat) (hn : 0 < n) :
    (chunk_and_pad xs n).length = n ∧
      ∃ L, ∀ c ∈ chunk_and_pad xs n, c.length = L := by
  by_cases hm : xs.length = 0
  · -- empty tensor: one empty chunk, extended by empty zero chunks
    have hx : xs = [] := List.length_eq_zero.mp hm
    subst hx
    have htc : torchChunk [] n = [[]] := by simp [torchChunk]
    have hpad : capPad [] n = 0 := by simp [capPad, htc]
    have hch2 : capChunks2 [] n = [[]] := by simp [capChunks2, hpad, htc]
    have hres : chunk_and_pad [] n = [[]] ++ List.replicate (n - 1) [] := by
      rw [chunk_and_pad, hch2]
      by_cases h1 : (1 : Nat) < n
      · rw [if_pos (by simpa using h1)]
        simp
      · have hn1 : n = 1 := by omega
        subst hn1
        simp
    refine ⟨?_, 0, ?_⟩
    · rw [hres, List.length_append, List.length_replicate]
      simp
      omega
    · intro y hy
      rw [hres] at hy
      rcases List.mem_append.mp hy with hy | hy
      · simp at hy
        simp [hy]
      · simp [List.eq_of_mem_replicate hy]
  · -- nonempty tensor
    have hm' : 0 < xs.length := Nat.pos_of_ne_zero hm
    set K := chunkSplitSize xs.length n with hKdef
    have hK : 0 < K := chunkSplitSize_pos hm' hn
    have hKle : K ≤ xs.length := chunkSplitSize_le hm' hn
    have htc : torchChunk xs n = splitList K xs := by rw [torchChunk, if_neg hm]
    set c := (xs.length + K - 1) / K with hcdef
    have hc1 : 0 < c := by
      rw [hcdef]
      have h1 : 1 ≤ (xs.length + K - 1) / K := by
        rw [Nat.le_div_iff_mul_le hK]; omega
      omega
    have hlen : (splitList K xs).length = c := by
      rw [splitList_length, hcdef]
    have hcn : c ≤ n := by
      have h2 : xs.length ≤ n * K := by
        have := le_mul_chunkSplitSize xs.length hn
        rw [← hKdef] at this
        omega
      have h3 : c < n + 1 := by
        rw [hcdef, Nat.div_lt_iff_lt_mul hK]
        have h4 : (n + 1) * K = n * K + K := by ring
        omega
      omega
    have h0len : ((splitList K xs).getD 0 []).length = K := by
      have h0 := splitList_getD hK xs 0
      rw [h0]
      simp only [Nat.zero_mul, List.drop_zero, List.length_take]
      omega
    have hlast : (splitList K xs).getD ((splitList K xs).length - 1) []
        = (xs.drop ((c - 1) * K)).take K := by
      rw [hlen]
      exact splitList_getD hK xs (c - 1)
    have hlastlen : ((xs.drop ((c - 1) * K)).take K).length ≤ K := by
      simp [List.length_take]
    have hpad : capPad xs n
        = (K : Int) - (((xs.drop ((c - 1) * K)).take K).length : Int) := by
      rw [capPad, htc, hlast, h0len]
    have hc' : 0 < (xs.length + K - 1) / K := by rw [← hcdef]; exact hc1
    have hmem : ∀ y ∈ capChunks2 xs n, y.length = K := by
      intro y hy
      rw [capChunks2, htc] at hy
      by_cases hp : 0 < capPad xs n
      · rw [if_pos hp] at hy
        rcases List.mem_append.mp hy with hy | hy
        · exact mem_splitList_dropLast_length hK hy
        · simp only [List.mem_singleton] at hy
          subst hy
          have hpt : (capPad xs n).toNat
              = K - ((xs.drop ((c - 1) * K)).take K).length := by
            rw [hpad]; omega
          rw [List.length_append, List.length_replicate, hlast, hpt]
          omega
      · rw [if_neg hp] at hy
        have hfull : ((xs.drop ((c - 1) * K)).take K).length = K := by
          rw [hpad] at hp; omega
        rw [splitList_concat K xs hc'] at hy
        rcases List.mem_append.mp hy with hy | hy
        · rw [← splitList_dropLast K xs hc'] at hy
          exact mem_splitList_dropLast_length hK hy
        · simp only [List.mem_singleton] at hy
          subst hy
          rw [← hcdef] at *
          exact hfull
    have hlen2 : (capChunks2 xs n).length = c := by
      rw [capChunks2, htc]
      by_cases hp : 0 < capPad xs n
      · rw [if_pos hp, List.length_append, List.length_dropLast, hlen]
        simp
        omega
      · rw [if_neg hp]
        exact hlen
    have hgd02 : ((capChunks2 xs n).getD 0 []).length = K := by
      have h0lt : 0 < (capChunks2 xs n).length := by omega
      rw [List.getD_eq_getElem _ _ h0lt]
      exact hmem _ (List.getElem_mem h0lt)
    refine ⟨?_, K, ?_⟩
    · rw [chunk_and_pad]
      by_cases hlt : (capChunks2 xs n).length < n
      · rw [if_pos hlt, List.length_append, List.length_replicate]
        omega
      · rw [if_neg hlt]
        omega
    · intro y hy
      rw [chunk_and_pad] at hy
      by_cases hlt : (capChunks2 xs n).length < n
      · rw [if_pos hlt] at hy
        rcases List.mem_append.mp hy with hy | hy
        · exact hmem y hy
        · rw [List.eq_of_mem_replicate hy, List.length_replicate]
          exact hgd02
      · rw [if_neg hlt] at hy
        exact hmem y hy

/-- Witness for C2 at the concrete tensor `[1, 2, 3]` with `num_chunks = 2`. -/
theorem chunk_and_pad_count_uniform_witness :
    0 < 2 ∧
      ((chunk_and_pad [1, 2, 3] 2).length = 2 ∧
        ∃ L, ∀ c ∈ chunk_and_pad [1, 2, 3] 2, c.length = L) :=
  ⟨by decide, chunk_and_pad_count_uniform [1, 2, 3] 2 (by decide)⟩

/-! ### `get_gradient_predivide_factor` -/

lemma predivideLoop_spec (ws : Nat) (f : Nat) (hf : 0 < f) :
    ∃ j : Nat, predivideLoop ws f = f * 2 ^ j ∧
      ¬(ws % (f * 2 ^ j) = 0 ∧ (f * 2 ^ j) * (f * 2 ^ j) < ws) ∧
      ∀ i < j, ws % (f * 2 ^ i) = 0 ∧ (f * 2 ^ i) * (f * 2 ^ i) < ws := by
  by_cases h : ws % f = 0 ∧ f * f < ws
  · obtain ⟨j, hj1, hj2, hj3⟩ := predivideLoop_spec ws (f * 2) (by omega)
    refine ⟨j + 1, ?_, ?_, ?_⟩
    · rw [predivideLoop, dif_pos ⟨hf, h.1, h.2⟩, hj1]
      ring
    · have heq : f * 2 ^ (j + 1) = f * 2 * 2 ^ j := by ring
      rw [heq]
      exact hj2
    · intro i hi
      cases i with
      | zero => simpa using h
      | succ i =>
        have heq : f * 2 ^ (i + 1) = f * 2 * 2 ^ i := by ring
        rw [heq]
        exact hj3 i (by omega)
  · refine ⟨0, ?_, by simpa using h, by omega⟩
    rw [predivideLoop, dif_neg (by tauto)]
    simp
termination_by ws - f
decreasing_by
  have hff : f ≤ f * f := Nat.le_mul_of_pos_left f hf
  omega

/-- C3 counterexample: the claim says the result is the largest power of two
that divides `world_size` while staying ≤ its square root.  The code returns
`4` for `world_size = 6`, but `4` does not divide `6`; and it returns `4` for
`world_size = 8`, but `4² = 16 > 8`, so `4` exceeds `√8` (the claimed value
there is `2`). -/
theorem get_gradient_predivide_factor_claim_false :
    get_gradient_predivide_factor 6 = 4 ∧ ¬((4 : Nat) ∣ 6) ∧
      get_gradient_predivide_factor 8 = 4 ∧ ¬((4 : Nat) * 4 ≤ 8) := by
  refine ⟨?_, by decide, ?_, by decide⟩
  · rw [get_gradient_predivide_factor]
    rw [predivideLoop]
    norm_num
    rw [predivideLoop]
    norm_num
    rw [predivideLoop]
    norm_num
  · rw [get_gradient_predivide_factor]
    rw [predivideLoop]
    norm_num
    rw [predivideLoop]
    norm_num
    rw [predivideLoop]
    norm_num

/-- C3 (amended): for every `world_size ≥ 1`, the function returns `2^j` for
the least `j` at which the loop test fails — i.e. every smaller power of two
divides `world_size` and has square strictly below it, while `2^j` itself
does not divide `world_size` or has square at least `world_size`.  (This is
the first power of two past the test, not the largest power of two
dividing `world_size` below its square root.) -/
theorem get_gradient_predivide_factor_spec (ws : Nat) (_hws : 0 < ws) :
    ∃ j : Nat, get_gradient_predivide_factor ws = 2 ^ j ∧
      ¬(2 ^ j ∣ ws ∧ 2 ^ j * 2 ^ j < ws) ∧
      ∀ i < j, 2 ^ i ∣ ws ∧ 2 ^ i * 2 ^ i < ws := by
  obtain ⟨j, h1, h2, h3⟩ := predivideLoop_spec ws 1 one_pos
  simp only [one_mul] at h1 h2 h3
  refine ⟨j, ?_, ?_, ?_⟩
  · rw [get_gradient_predivide_factor, h1]
  · rw [Nat.dvd_iff_mod_eq_zero]
    exact h2
  · intro i hi
    rw [Nat.dvd_iff_mod_eq_zero]
    exact h3 i hi

/-- Witness for the amended C3 at `world_size = 8`. -/
theorem get_gradient_predivide_factor_spec_witness :
    0 < 8 ∧
      ∃ j : Nat, get_gradient_predivide_factor 8 = 2 ^ j ∧
        ¬(2 ^ j ∣ 8 ∧ 2 ^ j * 2 ^ j < 8) ∧
        ∀ i < j, 2 ^ i ∣ 8 ∧ 2 ^ i * 2 ^ i < 8 :=
  ⟨by decide, get_gradient_predivide_factor_spec 8 (by decide)⟩

/-! ### Precision casting -/

/-- C5: when the dtype matches the expected source precision the cast
produces a tensor of the target precision and, for leaf inputs, the output's
gradient-tracking requirement equals the input's; otherwise the input is
returned unchanged; the fp16→fp32→fp16 composition leaves an fp16 tensor's
dtype at float16. -/
theorem cast_precision_spec (t : Tensor) :
    (t.dtype = DType.float32 →
      (cast_trensor_to_fp16 t).dtype = DType.float16 ∧
      (t.isLeaf = true →
        (cast_trensor_to_fp16 t).requiresGrad = t.requiresGrad)) ∧
    (t.dtype ≠ DType.float32 → cast_trensor_to_fp16 t = t) ∧
    (t.dtype = DType.float16 →
      (cast_trensor_to_fp32 t).dtype = DType.float32 ∧
      (t.isLeaf = true →
        (cast_trensor_to_fp32 t).requiresGrad = t.requiresGrad)) ∧
    (t.dtype ≠ DType.float16 → cast_trensor_to_fp32 t = t) ∧
    (t.dtype = DType.float16 →
      (cast_trensor_to_fp16 (cast_trensor_to_fp32 (cast_trensor_to_fp16 t))).dtype
        = DType.float16) := by
  rcases t with ⟨dt, rg, lf⟩
  cases dt <;> cases lf <;>
    simp [cast_trensor_to_fp16, cast_trensor_to_fp32, tensorHalf, tensorFloat,
      setRequiresGrad]

/-- Witness for C5 at concrete fp32 and fp16 leaf tensors. -/
theorem cast_precision_spec_witness :
    ((⟨DType.float32, true, true⟩ : Tensor).dtype = DType.float32) ∧
    (cast_trensor_to_fp16 ⟨DType.float32, true, true⟩).dtype = DType.float16 ∧
    (cast_trensor_to_fp16 ⟨DType.float32, true, true⟩).requiresGrad = true ∧
    ((⟨DType.float16, false, true⟩ : Tensor).dtype = DType.float16) ∧
    (cast_trensor_to_fp16 (cast_trensor_to_fp32 (cast_trensor_to_fp16
        (⟨DType.float16, false, true⟩ : Tensor)))).dtype = DType.float16 := by
  refine ⟨rfl, ?_, ?_, rfl, ?_⟩
  · exact ((cast_precision_spec ⟨DType.float32, true, true⟩).1 rfl).1
  · exact ((cast_precision_spec ⟨DType.float32, true, true⟩).1 rfl).2 rfl
  · exact (cast_precision_spec ⟨DType.float16, false, true⟩).2.2.2.2 rfl

/-! ### Storage lifecycle -/

/-- C8: `alloc_storage` is a no-op when the buffer already holds exactly the
requested element count, fails its assertion on a non-empty wrongly-sized
buffer, and resizes an empty buffer to exactly the requested element
count. -/
theorem alloc_storage_spec (t : TensorMem) (size : List Nat) :
    (t.storageSize = size.prod → alloc_storage t size = some t) ∧
    (t.storageSize ≠ size.prod → t.storageSize ≠ 0 →
      alloc_storage t size = none) ∧
    (t.storageSize = 0 →
      ∃ t', alloc_storage t size = some t' ∧ t'.storageSize = size.prod ∧
        t'.storageOffset = t.storageOffset) := by
  refine ⟨?_, ?_, ?_⟩
  · intro h
    rw [alloc_storage, if_pos h]
  · intro h h0
    rw [alloc_storage, if_neg h, if_neg h0]
  · intro h0
    by_cases h : t.storageSize = size.prod
    · exact ⟨t, by rw [alloc_storage, if_pos h], by omega, rfl⟩
    · exact ⟨{ t with storageSize := size.prod },
        by rw [alloc_storage, if_neg h, if_pos h0], rfl, rfl⟩

/-- Witness for C8: no-op on a correctly sized buffer, assertion failure on
a non-empty mismatched buffer, resize of an empty buffer. -/
theorem alloc_storage_spec_witness :
    ((5 : Nat) = List.prod [5] ∧ alloc_storage ⟨5, 0⟩ [5] = some ⟨5, 0⟩) ∧
    ((4 : Nat) ≠ List.prod [5] ∧ (4 : Nat) ≠ 0 ∧ alloc_storage ⟨4, 0⟩ [5] = none) ∧
    ((0 : Nat) = 0 ∧ ∃ t', alloc_storage ⟨0, 0⟩ [2, 3] = some t' ∧
      t'.storageSize = List.prod [2, 3] ∧ t'.storageOffset = 0) := by
  refine ⟨⟨by decide, ?_⟩, ⟨by decide, by decide, ?_⟩, ⟨rfl, ?_⟩⟩
  · exact (alloc_storage_spec ⟨5, 0⟩ [5]).1 (by decide)
  · exact (alloc_storage_spec ⟨4, 0⟩ [5]).2.1 (by decide) (by decide)
  · exact (alloc_storage_spec ⟨0, 0⟩ [2, 3]).2.2 rfl

/-- C9: `free_storage` resizes a non-empty buffer to zero when the storage
offset is zero, fails its assertion on a non-empty buffer with non-zero
offset, and leaves an empty buffer untouched without error. -/
theorem free_storage_spec (t : TensorMem) :
    (0 < t.storageSize → t.storageOffset = 0 →
      free_storage t = some { t with storageSize := 0 }) ∧
    (0 < t.storageSize → t.storageOffset ≠ 0 → free_storage t = none) ∧
    (t.storageSize = 0 → free_storage t = some t) := by
  refine ⟨?_, ?_, ?_⟩
  · intro h h0
    rw [free_storage, if_pos h, if_pos h0]
  · intro h h0
    rw [free_storage, if_pos h, if_neg h0]
  · intro h
    rw [free_storage, if_neg (by omega)]

/-- Witness for C9: release of an owned non-empty buffer, assertion failure
at non-zero offset, no-op on an empty buffer. -/
theorem free_storage_spec_witness :
    (0 < (3 : Nat) ∧ (0 : Nat) = 0 ∧ free_storage ⟨3, 0⟩ = some ⟨0, 0⟩) ∧
    (0 < (3 : Nat) ∧ (2 : Nat) ≠ 0 ∧ free_storage ⟨3, 2⟩ = none) ∧
    ((0 : Nat) = 0 ∧ free_storage ⟨0, 7⟩ = some ⟨0, 7⟩) := by
  refine ⟨⟨by decide, rfl, ?_⟩, ⟨by decide, by decide, ?_⟩, ⟨rfl, ?_⟩⟩
  · exact (free_storage_spec ⟨3, 0⟩).1 (by decide) rfl
  · exact (free_storage_spec ⟨3, 2⟩).2.1 (by decide) (by decide)
  · exact (free_storage_spec ⟨0, 7⟩).2.2 rfl

/-! ### Structural traversal -/

mutual

lemma apply_to_tensors_id_aux : ∀ x : PyVal, apply_to_tensors x PyVal.tensor = x
  | PyVal.tensor _ => rfl
  | PyVal.list xs => congrArg PyVal.list (applyToList_id_aux xs)
  | PyVal.tuple xs => congrArg PyVal.tuple (applyToList_id_aux xs)
  | PyVal.dict xs => congrArg PyVal.dict (applyToDict_id_aux xs)
  | PyVal.other _ => rfl

lemma applyToList_id_aux : ∀ xs : List PyVal, applyToList xs PyVal.tensor = xs
  | [] => rfl
  | x :: xs => by
      rw [applyToList, apply_to_tensors_id_aux x, applyToList_id_aux xs]

lemma applyToDict_id_aux :
    ∀ xs : List (String × PyVal), applyToDict xs PyVal.tensor = xs
  | [] => rfl
  | (k, v) :: xs => by
      rw [applyToDict, apply_to_tensors_id_aux v, applyToDict_id_aux xs]

end

/-- C10: `apply_to_tensors` with the identity function on tensor leaves
rebuilds an equal structure: every tensor leaf is passed through `fn` and
every non-tensor leaf and container is reproduced unchanged. -/
theorem apply_to_tensors_identity (x : PyVal) :
    apply_to_tensors x PyVal.tensor = x :=
  apply_to_tensors_id_aux x

/-! ### Dict operation lemmas -/

lemma dictGet?_insert_self {V : Type} (d : List (Key × V)) (k : Key) (v : V) :
    dictGet? (dictInsert d k v) k = some v := by
  induction d with
  | nil => rw [dictInsert, dictGet?, if_pos rfl]
  | cons p rest ih =>
    obtain ⟨k', v'⟩ := p
    by_cases h1 : k' = k
    · rw [dictInsert, if_pos h1, dictGet?, if_pos rfl]
    · rw [dictInsert, if_neg h1, dictGet?, if_neg h1, ih]

lemma dictGet?_insert_ne {V : Type} (d : List (Key × V)) (k : Key) (v : V)
    {q : Key} (h : q ≠ k) : dictGet? (dictInsert d k v) q = dictGet? d q := by
  induction d with
  | nil =>
    simp only [dictInsert, dictGet?]
    rw [if_neg (Ne.symm h)]
  | cons p rest ih =>
    obtain ⟨k', v'⟩ := p
    by_cases h1 : k' = k
    · subst h1
      rw [dictInsert, if_pos rfl, dictGet?, dictGet?,
        if_neg (Ne.symm h), if_neg (Ne.symm h)]
    · rw [dictInsert, if_neg h1, dictGet?, dictGet?]
      by_cases h2 : k' = q
      · rw [if_pos h2, if_pos h2]
      · rw [if_neg h2, if_neg h2, ih]

lemma dictGet?_eq_none_of_not_mem {V : Type} {d : List (Key × V)} {k : Key}
    (h : k ∉ d.map Prod.fst) : dictGet? d k = none := by
  induction d with
  | nil => rfl
  | cons p rest ih =>
    obtain ⟨k', v'⟩ := p
    simp only [List.map_cons, List.mem_cons] at h
    push_neg at h
    rw [dictGet?, if_neg (Ne.symm h.1)]
    exact ih h.2

lemma mem_keys_of_dictGet? {V : Type} {d : List (Key × V)} {k : Key} {v : V}
    (h : dictGet? d k = some v) : k ∈ d.map Prod.fst := by
  induction d with
  | nil => simp [dictGet?] at h
  | cons p rest ih =>
    obtain ⟨k', v'⟩ := p
    by_cases h1 : k' = k
    · subst h1
      exact List.mem_cons_self _ _
    · rw [dictGet?, if_neg h1] at h
      exact List.mem_cons_of_mem _ (ih h)

lemma dictGet?_some_of_mem_keys {V : Type} {d : List (Key × V)} {k : Key}
    (h : k ∈ d.map Prod.fst) : ∃ v, dictGet? d k = some v := by
  induction d with
  | nil => simp at h
  | cons p rest ih =>
    obtain ⟨k', v'⟩ := p
    by_cases h1 : k' = k
    · exact ⟨v', by rw [dictGet?, if_pos h1]⟩
    · simp only [List.map_cons, List.mem_cons] at h
      rcases h with h | h
      · exact absurd h.symm h1
      · obtain ⟨v, hv⟩ := ih h
        exact ⟨v, by rw [dictGet?, if_neg h1, hv]⟩

lemma dictGet?_erase_ne {V : Type} (d : List (Key × V)) {k q : Key}
    (h : q ≠ k) : dictGet? (dictErase d k) q = dictGet? d q := by
  induction d with
  | nil => rfl
  | cons p rest ih =>
    obtain ⟨k', v'⟩ := p
    by_cases h1 : k' = k
    · subst h1
      rw [dictErase, if_pos rfl, dictGet?, if_neg (Ne.symm h)]
    · rw [dictErase, if_neg h1, dictGet?, dictGet?]
      by_cases h2 : k' = q
      · rw [if_pos h2, if_pos h2]
      · rw [if_neg h2, if_neg h2, ih]

lemma dictGet?_erase_self {V : Type} {d : List (Key × V)} {k : Key}
    (hd : (d.map Prod.fst).Nodup) : dictGet? (dictErase d k) k = none := by
  induction d with
  | nil => rfl
  | cons p rest ih =>
    obtain ⟨k', v'⟩ := p
    simp only [List.map_cons, List.nodup_cons] at hd
    by_cases h1 : k' = k
    · subst h1
      rw [dictErase, if_pos rfl]
      exact dictGet?_eq_none_of_not_mem hd.1
    · rw [dictErase, if_neg h1, dictGet?, if_neg h1]
      exact ih hd.2

lemma mem_keys_dictInsert {V : Type} {d : List (Key × V)} {k : Key} {v : V}
    {q : Key} (h : q ∈ (dictInsert d k v).map Prod.fst) :
    q ∈ d.map Prod.fst ∨ q = k := by
  induction d with
  | nil =>
    rw [dictInsert] at h
    exact Or.inr (List.mem_singleton.mp h)
  | cons p rest ih =>
    obtain ⟨k', v'⟩ := p
    by_cases h1 : k' = k
    · rw [dictInsert, if_pos h1] at h
      simp only [List.map_cons, List.mem_cons] at h
      rcases h with h | h
      · exact Or.inr h
      · exact Or.inl (List.mem_cons_of_mem _ h)
    · rw [dictInsert, if_neg h1] at h
      simp only [List.map_cons, List.mem_cons] at h
      rcases h with h | h
      · exact Or.inl (h ▸ List.mem_cons_self _ _)
      · rcases ih h with h' | h'
        · exact Or.inl (List.mem_cons_of_mem _ h')
        · exact Or.inr h'

lemma mem_keys_dictErase {V : Type} {d : List (Key × V)} {k : Key} {q : Key}
    (h : q ∈ (dictErase d k).map Prod.fst) : q ∈ d.map Prod.fst := by
  induction d with
  | nil => simp [dictErase] at h
  | cons p rest ih =>
    obtain ⟨k', v'⟩ := p
    by_cases h1 : k' = k
    · rw [dictErase, if_pos h1] at h
      exact List.mem_cons_of_mem _ h
    · rw [dictErase, if_neg h1] at h
      simp only [List.map_cons, List.mem_cons] at h ⊢
      rcases h with h | h
      · exact Or.inl h
      · exact Or.inr (ih h)

lemma nodup_keys_dictInsert {V : Type} {d : List (Key × V)} {k : Key} {v : V}
    (hd : (d.map Prod.fst).Nodup) : ((dictInsert d k v).map Prod.fst).Nodup := by
  induction d with
  | nil => simp [dictInsert]
  | cons p rest ih =>
    obtain ⟨k', v'⟩ := p
    simp only [List.map_cons, List.nodup_cons] at hd
    by_cases h1 : k' = k
    · subst h1
      rw [dictInsert, if_pos rfl]
      simp only [List.map_cons, List.nodup_cons]
      exact hd
    · rw [dictInsert, if_neg h1]
      simp only [List.map_cons, List.nodup_cons]
      refine ⟨?_, ih hd.2⟩
      intro hmem
      rcases mem_keys_dictInsert hmem with h' | h'
      · exact hd.1 h'
      · exact h1 h'

lemma nodup_keys_dictErase {V : Type} {d : List (Key × V)} {k : Key}
    (hd : (d.map Prod.fst).Nodup) : ((dictErase d k).map Prod.fst).Nodup := by
  induction d with
  | nil => simp [dictErase]
  | cons p rest ih =>
    obtain ⟨k', v'⟩ := p
    simp only [List.map_cons, List.nodup_cons] at hd
    by_cases h1 : k' = k
    · rw [dictErase, if_pos h1]
      exact hd.2
    · rw [dictErase, if_neg h1]
      simp only [List.map_cons, List.nodup_cons]
      exact ⟨fun hmem => hd.1 (mem_keys_dictErase hmem), ih hd.2⟩

/-! ### Key-prefix facts -/

lemma key_reconstruct {k oldP : Key} (h : k.take oldP.length = oldP) :
    oldP ++ k.drop oldP.length = k := by
  conv_rhs => rw [← List.take_append_drop oldP.length k]
  rw [h]

lemma ren_inj {oldP newP k k' : Key} (hk : k.take oldP.length = oldP)
    (hk' : k'.take oldP.length = oldP)
    (h : newP ++ k.drop oldP.length = newP ++ k'.drop oldP.length) : k = k' := by
  have h2 : k.drop oldP.length = k'.drop oldP.length := List.append_cancel_left h
  rw [← key_reconstruct hk, ← key_reconstruct hk', h2]

lemma ren_ne_self {oldP newP k : Key} (hne : oldP ≠ newP)
    (hk : k.take oldP.length = oldP) : k ≠ newP ++ k.drop oldP.length := by
  intro h
  apply hne
  have h1 : oldP ++ k.drop oldP.length = newP ++ k.drop oldP.length := by
    rw [key_reconstruct hk]
    exact h
  exact List.append_cancel_right h1

/-! ### The rename loop -/

lemma rsdpRun_lookup {V : Type} (oldP newP : Key) (hne : oldP ≠ newP) :
    ∀ (todo : List Key) (cur : List (Key × V)),
      (cur.map Prod.fst).Nodup →
      todo.Nodup →
      (∀ k ∈ todo, k ∈ cur.map Prod.fst) →
      (∀ k ∈ todo, k.take oldP.length = oldP →
          (newP ++ k.drop oldP.length) ∉ cur.map Prod.fst) →
      (∀ k ∈ todo, k.take oldP.length = oldP →
          dictGet? (rsdpRun cur oldP newP todo) (newP ++ k.drop oldP.length)
              = dictGet? cur k ∧
            dictGet? (rsdpRun cur oldP newP todo) k = none) ∧
        (∀ q : Key,
          (∀ k ∈ todo, k.take oldP.length = oldP →
              q ≠ newP ++ k.drop oldP.length) →
          ¬(q ∈ todo ∧ q.take oldP.length = oldP) →
          dictGet? (rsdpRun cur oldP newP todo) q = dictGet? cur q) := by
  intro todo
  induction todo with
  | nil =>
    intro cur _ _ _ _
    refine ⟨?_, ?_⟩
    · intro k hk
      simp at hk
    · intro q _ _
      rfl
  | cons key rest ih =>
    intro cur hndcur hndtodo hmem hfresh
    by_cases hmatch : key.take oldP.length = oldP
    case neg =>
      have hstep : rsdpStep oldP newP cur key = cur := by
        rw [rsdpStep, if_neg hmatch]
      have hrun : rsdpRun cur oldP newP (key :: rest)
          = rsdpRun cur oldP newP rest := by
        rw [rsdpRun, List.foldl_cons, hstep]
        rfl
      obtain ⟨ih1, ih2⟩ := ih cur hndcur (List.nodup_cons.mp hndtodo).2
        (fun k hk => hmem k (List.mem_cons_of_mem _ hk))
        (fun k hk hm => hfresh k (List.mem_cons_of_mem _ hk) hm)
      refine ⟨?_, ?_⟩
      · intro k hk hm
        rcases List.mem_cons.mp hk with hk | hk
        · exact absurd (hk ▸ hm) hmatch
        · rw [hrun]
          exact ih1 k hk hm
      · intro q hq1 hq2
        rw [hrun]
        exact ih2 q (fun k hk => hq1 k (List.mem_cons_of_mem _ hk))
          (fun hc => hq2 ⟨List.mem_cons_of_mem _ hc.1, hc.2⟩)
    case pos =>
      obtain ⟨v, hv⟩ :=
        dictGet?_some_of_mem_keys (hmem key (List.mem_cons_self _ _))
      have hkeymem : key ∈ cur.map Prod.fst := hmem key (List.mem_cons_self _ _)
      have hrfresh : (newP ++ key.drop oldP.length) ∉ cur.map Prod.fst :=
        hfresh key (List.mem_cons_self _ _) hmatch
      have hkeyne : key ≠ newP ++ key.drop oldP.length := ren_ne_self hne hmatch
      have hstep : rsdpStep oldP newP cur key
          = dictErase (dictInsert cur (newP ++ key.drop oldP.length) v) key := by
        rw [rsdpStep, if_pos hmatch, hv]
      set cur' := dictErase (dictInsert cur (newP ++ key.drop oldP.length) v) key
        with hcur'
      have hrun : rsdpRun cur oldP newP (key :: rest)
          = rsdpRun cur' oldP newP rest := by
        rw [rsdpRun, List.foldl_cons, hstep]
        rfl
      have hnd' : (cur'.map Prod.fst).Nodup :=
        nodup_keys_dictErase (nodup_keys_dictInsert hndcur)
      have g_r : dictGet? cur' (newP ++ key.drop oldP.length) = some v := by
        rw [hcur', dictGet?_erase_ne _ (Ne.symm hkeyne), dictGet?_insert_self]
      have g_key : dictGet? cur' key = none := by
        rw [hcur']
        exact dictGet?_erase_self (nodup_keys_dictInsert hndcur)
      have g_other : ∀ q : Key, q ≠ key → q ≠ newP ++ key.drop oldP.length →
          dictGet? cur' q = dictGet? cur q := by
        intro q hq1 hq2
        rw [hcur', dictGet?_erase_ne _ hq1, dictGet?_insert_ne _ _ _ hq2]
      have hkeys' : ∀ q : Key, q ∈ cur'.map Prod.fst →
          q ∈ cur.map Prod.fst ∨ q = newP ++ key.drop oldP.length := by
        intro q hq
        exact mem_keys_dictInsert (mem_keys_dictErase hq)
      have hndrest := (List.nodup_cons.mp hndtodo).2
      have hkeynotinrest : key ∉ rest := (List.nodup_cons.mp hndtodo).1
      have hmem' : ∀ k ∈ rest, k ∈ cur'.map Prod.fst := by
        intro k hk
        have hkne : k ≠ key := fun h => hkeynotinrest (h ▸ hk)
        have hkcur : k ∈ cur.map Prod.fst := hmem k (List.mem_cons_of_mem _ hk)
        have hknr : k ≠ newP ++ key.drop oldP.length :=
          fun h => hrfresh (h ▸ hkcur)
        obtain ⟨v', hv'⟩ := dictGet?_some_of_mem_keys hkcur
        exact mem_keys_of_dictGet? (v := v')
          (by rw [g_other k hkne hknr]; exact hv')
      have hfresh' : ∀ k ∈ rest, k.take oldP.length = oldP →
          (newP ++ k.drop oldP.length) ∉ cur'.map Prod.fst := by
        intro k hk hm hmem2
        rcases hkeys' _ hmem2 with hc | hc
        · exact hfresh k (List.mem_cons_of_mem _ hk) hm hc
        · have hkk : k = key := ren_inj hm hmatch hc
          exact hkeynotinrest (hkk ▸ hk)
      obtain ⟨ih1, ih2⟩ := ih cur' hnd' hndrest hmem' hfresh'
      refine ⟨?_, ?_⟩
      · intro k hk hm
        rcases List.mem_cons.mp hk with hkey | hkrest
        · subst hkey
          constructor
          · rw [hrun]
            have hq1 : ∀ k' ∈ rest, k'.take oldP.length = oldP →
                (newP ++ k.drop oldP.length) ≠ newP ++ k'.drop oldP.length := by
              intro k' hk' hm' hceq
              have hkk : k = k' := ren_inj hmatch hm' hceq
              exact hkeynotinrest (hkk ▸ hk')
            have hq2 : ¬((newP ++ k.drop oldP.length) ∈ rest ∧
                (newP ++ k.drop oldP.length).take oldP.length = oldP) := by
              intro hc
              exact hrfresh (hmem _ (List.mem_cons_of_mem _ hc.1))
            rw [ih2 _ hq1 hq2, g_r, hv]
          · rw [hrun]
            have hq1 : ∀ k' ∈ rest, k'.take oldP.length = oldP →
                k ≠ newP ++ k'.drop oldP.length := by
              intro k' hk' hm' hceq
              exact hfresh k' (List.mem_cons_of_mem _ hk') hm' (hceq ▸ hkeymem)
            have hq2 : ¬(k ∈ rest ∧ k.take oldP.length = oldP) :=
              fun hc => hkeynotinrest hc.1
            rw [ih2 _ hq1 hq2, g_key]
        · have hkne : k ≠ key := fun h => hkeynotinrest (h ▸ hkrest)
          have hkcur : k ∈ cur.map Prod.fst :=
            hmem k (List.mem_cons_of_mem _ hkrest)
          have hknr : k ≠ newP ++ key.drop oldP.length :=
            fun h => hrfresh (h ▸ hkcur)
          obtain ⟨e1, e2⟩ := ih1 k hkrest hm
          rw [hrun]
          exact ⟨by rw [e1, g_other k hkne hknr], e2⟩
      · intro q hq1 hq2
        have hqnkey : q ≠ key := by
          intro h
          exact hq2 ⟨h ▸ List.mem_cons_self _ _, h ▸ hmatch⟩
        have hqnr : q ≠ newP ++ key.drop oldP.length :=
          hq1 key (List.mem_cons_self _ _) hmatch
        rw [hrun, ih2 q (fun k hk => hq1 k (List.mem_cons_of_mem _ hk))
          (fun hc => hq2 ⟨List.mem_cons_of_mem _ hc.1, hc.2⟩)]
        exact g_other q hqnkey hqnr

/-- C6 counterexample: on the mapping `{"ab": 1, "b": 2}` with prefixes
`"a" → ""`, the key `"b"` does not start with `"a"`, yet after the call its
binding is `1` rather than its original value `2` — the renamed `"ab"`
collides with and overwrites it.  The claim's untouched-keys guarantee is
therefore false as universally stated. -/
theorem replace_state_dict_keys_claim_false :
    dictGet? (replace_state_dict_keys
        [([ 'a', 'b' ], (1 : Int)), ([ 'b' ], 2)] [ 'a' ] []).1 [ 'b' ]
      = some 1 ∧
    dictGet? [([ 'a', 'b' ], (1 : Int)), ([ 'b' ], 2)] [ 'b' ] = some 2 := by
  constructor
  · decide
  · decide

/-- C6 (amended): for distinct prefixes, a mapping with distinct keys, and
no renamed key colliding with an original key, the rename loop — run over
ANY processing order of the snapshot of keys — binds every matching key's
rename to that key's original value, removes the matching key, and leaves
every non-matching key bound to its original value; hence the final contents
do not depend on the processing order, and `replace_state_dict_prefix`
performs exactly this loop over the mapping-order snapshot without
raising. -/
theorem replace_state_dict_keys_spec {V : Type} (d : List (Key × V))
    (oldP newP : Key) (todo : List Key)
    (hne : oldP ≠ newP) (hnd : (d.map Prod.fst).Nodup)
    (hperm : todo.Perm (d.map Prod.fst))
    (hfresh : ∀ k ∈ d.map Prod.fst, k.take oldP.length = oldP →
        (newP ++ k.drop oldP.length) ∉ d.map Prod.fst) :
    replace_state_dict_keys d oldP newP
        = (rsdpRun d oldP newP (d.map Prod.fst), false) ∧
      (∀ k ∈ d.map Prod.fst, k.take oldP.length = oldP →
        dictGet? (rsdpRun d oldP newP todo) (newP ++ k.drop oldP.length)
            = dictGet? d k ∧
          dictGet? (rsdpRun d oldP newP todo) k = none) ∧
      (∀ k ∈ d.map Prod.fst, ¬(k.take oldP.length = oldP) →
        dictGet? (rsdpRun d oldP newP todo) k = dictGet? d k) := by
  have hndtodo : todo.Nodup := hperm.nodup_iff.mpr hnd
  have hmemiff : ∀ k : Key, k ∈ todo ↔ k ∈ d.map Prod.fst :=
    fun k => hperm.mem_iff
  obtain ⟨h1, h2⟩ := rsdpRun_lookup oldP newP hne todo d hnd hndtodo
    (fun k hk => (hmemiff k).mp hk)
    (fun k hk hm => hfresh k ((hmemiff k).mp hk) hm)
  refine ⟨?_, ?_, ?_⟩
  · rw [replace_state_dict_keys, if_neg hne]
  · intro k hk hm
    exact h1 k ((hmemiff k).mpr hk) hm
  · intro k hk hm
    apply h2
    · intro k' hk' hm' hceq
      exact hfresh k' ((hmemiff k').mp hk') hm' (hceq ▸ hk)
    · intro hc
      exact hm hc.2

/-- Witness for the amended C6: `{"ab": 1}` with prefixes `"a" → "c"` and
the snapshot order `["ab"]`. -/
theorem replace_state_dict_keys_spec_witness :
    (([ 'a' ] : Key) ≠ [ 'c' ] ∧
      (([([ 'a', 'b' ], (1 : Int))].map Prod.fst)).Nodup ∧
      List.Perm [[ 'a', 'b' ]] ([([ 'a', 'b' ], (1 : Int))].map Prod.fst) ∧
      (∀ k ∈ [([ 'a', 'b' ], (1 : Int))].map Prod.fst,
        k.take ([ 'a' ] : Key).length = [ 'a' ] →
        (([ 'c' ] : Key) ++ k.drop ([ 'a' ] : Key).length)
          ∉ [([ 'a', 'b' ], (1 : Int))].map Prod.fst)) ∧
    (replace_state_dict_keys [([ 'a', 'b' ], (1 : Int))] [ 'a' ] [ 'c' ]
        = (rsdpRun [([ 'a', 'b' ], (1 : Int))] [ 'a' ] [ 'c' ]
            ([([ 'a', 'b' ], (1 : Int))].map Prod.fst), false) ∧
      (∀ k ∈ [([ 'a', 'b' ], (1 : Int))].map Prod.fst,
        k.take ([ 'a' ] : Key).length = [ 'a' ] →
        dictGet? (rsdpRun [([ 'a', 'b' ], (1 : Int))] [ 'a' ] [ 'c' ]
              [[ 'a', 'b' ]]) (([ 'c' ] : Key) ++ k.drop ([ 'a' ] : Key).length)
            = dictGet? [([ 'a', 'b' ], (1 : Int))] k ∧
          dictGet? (rsdpRun [([ 'a', 'b' ], (1 : Int))] [ 'a' ] [ 'c' ]
              [[ 'a', 'b' ]]) k = none) ∧
      (∀ k ∈ [([ 'a', 'b' ], (1 : Int))].map Prod.fst,
        ¬(k.take ([ 'a' ] : Key).length = [ 'a' ]) →
        dictGet? (rsdpRun [([ 'a', 'b' ], (1 : Int))] [ 'a' ] [ 'c' ]
            [[ 'a', 'b' ]]) k = dictGet? [([ 'a', 'b' ], (1 : Int))] k)) :=
  ⟨⟨by decide, by decide, List.Perm.refl _, by decide⟩,
    replace_state_dict_keys_spec [([ 'a', 'b' ], (1 : Int))] [ 'a' ] [ 'c' ]
      [[ 'a', 'b' ]] (by decide) (by decide) (List.Perm.refl _) (by decide)⟩

/-- C7: `replace_state_dict_prefix` raises its value error exactly when the
two prefixes coincide, and in that case the mapping is returned completely
unchanged (the check precedes any mutation). -/
theorem replace_state_dict_keys_error_iff {V : Type} (d : List (Key × V))
    (oldP newP : Key) :
    ((replace_state_dict_keys d oldP newP).2 = true ↔ oldP = newP) ∧
    (oldP = newP → (replace_state_dict_keys d oldP newP).1 = d) := by
  by_cases h : oldP = newP
  · rw [replace_state_dict_keys, if_pos h]
    exact ⟨⟨fun _ => h, fun _ => rfl⟩, fun _ => rfl⟩
  · rw [replace_state_dict_keys, if_neg h]
    exact ⟨⟨fun hc => absurd hc (by simp), fun hc => absurd hc h⟩,
      fun hc => absurd hc h⟩

/-- Witness for C7 at the concrete mapping `{"x": 1}` with equal prefixes. -/
theorem replace_state_dict_keys_error_iff_witness :
    (replace_state_dict_keys [([ 'x' ], (1 : Int))] [ 'x' ] [ 'x' ]).2 = true ∧
    (replace_state_dict_keys [([ 'x' ], (1 : Int))] [ 'x' ] [ 'x' ]).1
      = [([ 'x' ], (1 : Int))] :=
  ⟨(replace_state_dict_keys_error_iff [([ 'x' ], (1 : Int))] [ 'x' ] [ 'x' ]).1.mpr
      rfl,
    (replace_state_dict_keys_error_iff [([ 'x' ], (1 : Int))] [ 'x' ] [ 'x' ]).2
      rfl⟩

end Zero3Utils
